import Mathlib

/-!
# Verification of the `mem.c` first-fit memory allocator

Shallow embedding of `src/mem.c` (Mem_Init, Mem_Alloc, Mem_Free) and proofs
about it.

The allocator keeps a singly linked, address-ordered list of blocks inside a
single region obtained from the OS.  Each block has a header
(`struct block_hd`: a `next` pointer and an `int size_status`).  We model the
list explicitly as a `List Block` in linked-list order (the `next` pointers
are the list structure), with each block carrying the address of its header,
so that the pointer arithmetic of the C code is visible.

C `int` values are modelled as `Int`; `%` on C ints truncates toward zero, so
it is modelled by `Int.tmod`, and `/` by `Int.tdiv`.

`sizeof(block_header)` is 8: a 4-byte pointer plus a 4-byte `int` on the
ILP32 platform the code targets (the code's own comment in `Mem_Free`,
"Move bacl 8 bits to get to start of block header", steps back 8 bytes).
-/

/-- Value of `sizeof(block_header)`: a 4-byte `next` pointer plus a 4-byte
`int size_status`. -/
def hdrSize : Int := 8

/-- One list node, i.e. one `struct block_hd` together with the address at
which its header lives.  `size_status` is the raw encoded field: for a free
block it equals the payload size, for an allocated block payload size + 1. -/
structure Block where
  addr : Int
  size_status : Int
deriving Repr, DecidableEq

/-- The LSB test `size_status % 2 == 0` used throughout `mem.c` to recognise
a free block. -/
def isFree (b : Block) : Bool := b.size_status.tmod 2 == 0

/-- Decoded payload size of a block: `size_status` for a free block,
`size_status - 1` for an allocated one (comment at the top of `mem.c`). -/
def payload (b : Block) : Int :=
  if b.size_status.tmod 2 == 1 then b.size_status - 1 else b.size_status

/-- Total footprint of a block: payload plus header, as summed by
`Mem_Dump`'s `t_Size`. -/
def blockTotal (b : Block) : Int := payload b + hdrSize

/-- Sum of `blockTotal` over the whole list (the `Total size` of
`Mem_Dump`). -/
def coverage (bs : List Block) : Int := (bs.map blockTotal).sum

/-- Process state: the one-shot `static int allocated_once` flag of
`Mem_Init` and the block list hanging off `list_head` (empty list stands for
`list_head == NULL`). -/
structure MemState where
  allocated_once : Bool
  blocks : List Block
deriving Repr, DecidableEq

/-- The `padsize` computation of `Mem_Init`:
`padsize = sizeOfRegion % pagesize; padsize = (pagesize - padsize) % pagesize`. -/
def padsize (pagesize sizeOfRegion : Int) : Int :=
  (pagesize - sizeOfRegion.tmod pagesize).tmod pagesize

/-- Model of `Mem_Init`.  Returns the C return code (0 success, -1 failure) and the
new state.  `fdOk` models `open("/dev/zero")` succeeding and `mmapOk` models
`mmap` succeeding; `base` is the address `mmap` returns and `pagesize` the
value of `getpagesize()`.  Note that `allocated_once` is set only after
`mmap` has succeeded, so a failed call leaves it clear. -/
def mem_Init (s : MemState) (fdOk mmapOk : Bool) (base pagesize sizeOfRegion : Int) :
    Int × MemState :=
  if s.allocated_once then (-1, s)
  else if sizeOfRegion ≤ 0 then (-1, s)
  else if !fdOk then (-1, s)
  else if !mmapOk then (-1, s)
  else
    let alloc_size := sizeOfRegion + padsize pagesize sizeOfRegion
    (0, { allocated_once := true
          blocks := [⟨base, alloc_size - hdrSize⟩] })

/-- The rounding step of `Mem_Alloc`:
`if(size%4 > 0){ sizeBy4 = size + (4 - size%4); } else { sizeBy4 = size; }`. -/
def roundBy4 (size : Int) : Int :=
  if size.tmod 4 > 0 then size + (4 - size.tmod 4) else size

/-- The traversal of `Mem_Alloc`: the `while(ptr->next != NULL)` loop
followed by the identical handling of the last block.  For each block in
list order it applies the same tests (free, large enough, splittable) and on
the first fit either splits — note the C pointer arithmetic
`newBlock = ptr + sizeWithHead / sizeof(block_header)`, truncating integer
division in units of the 8-byte header — or allocates the block whole.
Returns the C return value (payload address `ptr + 1`, or `NULL = none`) and
the list after the call. -/
def allocScan (sizeBy4 sizeWithHead : Int) : List Block → Option Int × List Block
  | [] => (none, [])
  | b :: rest =>
    if b.size_status.tmod 2 == 0 then
      if b.size_status ≥ sizeWithHead then
        if b.size_status - sizeWithHead ≥ hdrSize + 4 then
          (some (b.addr + hdrSize),
            ⟨b.addr, sizeBy4 + 1⟩ ::
              ⟨b.addr + hdrSize * (sizeWithHead.tdiv hdrSize),
                b.size_status - sizeWithHead⟩ :: rest)
        else
          (some (b.addr + hdrSize), ⟨b.addr, b.size_status + 1⟩ :: rest)
      else
        let r := allocScan sizeBy4 sizeWithHead rest
        (r.1, b :: r.2)
    else
      let r := allocScan sizeBy4 sizeWithHead rest
      (r.1, b :: r.2)

/-- Model of `Mem_Alloc`.  Rejects non-positive sizes, rounds up to a multiple of 4,
adds the header size and runs the first-fit scan. -/
def mem_Alloc (bs : List Block) (size : Int) : Option Int × List Block :=
  if size ≤ 0 then (none, bs)
  else allocScan (roundBy4 size) (roundBy4 size + hdrSize) bs

/-- Locate the block whose header address is `a`: returns the blocks before
it, the block itself, and the blocks after it.  This models dereferencing a
block-header pointer with address `a` in a state where the list tiles the
region (first occurrence in list order; node identity is address identity). -/
def findBlock (a : Int) : List Block → Option (List Block × Block × List Block)
  | [] => none
  | b :: rest =>
    if b.addr == a then some ([], b, rest)
    else
      match findBlock a rest with
      | none => none
      | some (pre, x, post) => some (b :: pre, x, post)

/-- The backward-coalescing phase of `Mem_Free`, acting on the blocks `pre`
that precede the freed block `b2` in list order.  The C code returns
immediately when the freed block is the head (`pre = []`); otherwise it
walks from `list_head` to find the predecessor (the last element of `pre`)
and, if that predecessor is free, absorbs `b2` into it
(`prev->size_status += prev->next->size_status + sizeof(block_header);
prev->next = prev->next->next`). -/
def freeBack : List Block → Block → List Block → List Block
  | [], b2, post2 => b2 :: post2
  | [prev], b2, post2 =>
    if prev.size_status.tmod 2 == 0 then
      ⟨prev.addr, prev.size_status + b2.size_status + hdrSize⟩ :: post2
    else prev :: b2 :: post2
  | q :: pre, b2, post2 => q :: freeBack pre b2 post2

/-- Model of `Mem_Free`.  Returns the C return code (0 success, -1 failure) and the
list after the call.  The argument `p` is the payload address handed to the
caller; the header is recovered at `p - hdrSize` (`newPtr = newPtr - 1`).
When `p - hdrSize` is not the address of any block of the list, the C code
reads unmanaged memory (undefined behaviour); the model returns failure
without mutation there, and every theorem about `mem_Free` either supplies a
managed address or is independent of this branch. -/
def mem_Free (bs : List Block) (p : Int) : Int × List Block :=
  if p == 0 then (-1, bs)
  else
    match findBlock (p - hdrSize) bs with
    | none => (-1, bs)
    | some (pre, b, post) =>
      if !(b.size_status.tmod 2 == 1) then (-1, pre ++ b :: post)
      else
        -- clear the flag: `newPtr->size_status += -1`
        let b1 : Block := ⟨b.addr, b.size_status - 1⟩
        -- forward coalescing with the next block when it exists and is free
        match post with
        | [] => (0, freeBack pre b1 [])
        | n :: post' =>
          if n.size_status.tmod 2 == 0 then
            (0, freeBack pre ⟨b1.addr, b1.size_status + n.size_status + hdrSize⟩ post')
          else
            (0, freeBack pre b1 (n :: post'))

/-- A call to one of the three public operations, with the environment
inputs of `Mem_Init` (OS primitive outcomes, mmap base, page size) made
explicit. -/
inductive Op where
  | opInit (fdOk mmapOk : Bool) (base pagesize sz : Int)
  | opAlloc (sz : Int)
  | opFree (p : Int)
deriving Repr, DecidableEq

/-- Effect of one call on the process state. -/
def stepOp (s : MemState) : Op → MemState
  | .opInit fdOk mmapOk base pagesize sz => (mem_Init s fdOk mmapOk base pagesize sz).2
  | .opAlloc sz => { s with blocks := (mem_Alloc s.blocks sz).2 }
  | .opFree p => { s with blocks := (mem_Free s.blocks p).2 }

/-- Run a sequence of calls. -/
def run (s : MemState) (ops : List Op) : MemState := ops.foldl stepOp s

/-- The state at program start: `allocated_once = 0`, `list_head = NULL`. -/
def initialState : MemState := ⟨false, []⟩

/-- Block lists reachable (from a successful `Mem_Init` of a region that the
OS rounded up to `R` bytes) by any sequence of `Mem_Alloc` / `Mem_Free`
calls.  The `init` constructor records the environment facts about
`getpagesize()`: the page size is a positive multiple of 4 at least as large
as a header (real page sizes are powers of two ≥ 4096). -/
inductive Reach : Int → List Block → Prop where
  | init (base pagesize sz : Int)
      (hsz : 0 < sz) (hpg : 0 < pagesize)
      (hpg4 : pagesize.tmod 4 = 0) (hpg8 : hdrSize ≤ pagesize) :
      Reach (sz + padsize pagesize sz) [⟨base, sz + padsize pagesize sz - hdrSize⟩]
  | alloc (R sz : Int) {bs : List Block} :
      Reach R bs → Reach R (mem_Alloc bs sz).2
  | free (R p : Int) {bs : List Block} :
      Reach R bs → Reach R (mem_Free bs p).2

/-- The size test of the first-fit search: the block is free
(`size_status % 2 == 0`) and its payload is at least the rounded size plus
the header size (`size_status >= sizeWithHead`). -/
def fits (sizeWithHead : Int) (b : Block) : Bool :=
  b.size_status.tmod 2 == 0 && decide (sizeWithHead ≤ b.size_status)

/-- Data-model invariant I3: every block's decoded payload is a non-negative
multiple of 4. -/
def sizesOK (bs : List Block) : Prop :=
  ∀ b ∈ bs, 0 ≤ payload b ∧ (payload b).tmod 4 = 0

/-- Data-model invariant I1 (tiling): each block's successor starts exactly
at the end of the block (header address + header size + payload). -/
def tiled (bs : List Block) : Prop :=
  List.Chain' (fun a b => b.addr = a.addr + hdrSize + payload a) bs

/-- Two blocks are not simultaneously free. -/
def notBothFree (a b : Block) : Prop := ¬(isFree a = true ∧ isFree b = true)

/-- Data-model invariant I2: no two consecutive blocks of the list are both
free. -/
def noAdjacentFree (bs : List Block) : Prop :=
  List.Chain' notBothFree bs

instance : IsTrans Block (fun a b => a.addr < b.addr) where
  trans _ _ _ h1 h2 := lt_trans h1 h2

instance (a b : Block) : Decidable (notBothFree a b) :=
  inferInstanceAs (Decidable (¬(isFree a = true ∧ isFree b = true)))

instance (bs : List Block) : Decidable (noAdjacentFree bs) :=
  inferInstanceAs (Decidable (List.Chain' notBothFree bs))

instance (bs : List Block) : Decidable (sizesOK bs) :=
  inferInstanceAs (Decidable (∀ b ∈ bs, 0 ≤ payload b ∧ (payload b).tmod 4 = 0))

instance (bs : List Block) : Decidable (tiled bs) :=
  inferInstanceAs
    (Decidable (List.Chain' (fun a b => b.addr = a.addr + hdrSize + payload a) bs))

/-! ## Arithmetic helpers: truncating `%` and `/` on the values that occur -/

theorem tmod_two_one_pos {x : Int} (h : x.tmod 2 = 1) : 0 < x := by
  rcases x with m | m
  · rcases m with _ | m
    · simp [Int.tmod] at h
    · exact Int.ofNat_pos.mpr (Nat.succ_pos m)
  · exfalso
    have h2 : (Int.negSucc m).tmod 2 = -Int.ofNat ((m + 1) % 2) := rfl
    rw [h2] at h
    have h3 : (0 : Int) ≤ Int.ofNat ((m + 1) % 2) := Int.ofNat_nonneg _
    omega

theorem odd_pred_even {x : Int} (h : x.tmod 2 = 1) : (x - 1).tmod 2 = 0 := by
  have hx := tmod_two_one_pos h
  rw [Int.tmod_eq_emod (by omega) (by omega)] at h
  rw [Int.tmod_eq_emod (by omega) (by omega)]
  omega

theorem even_succ_odd {x : Int} (hx : 0 ≤ x) (h : x.tmod 2 = 0) : (x + 1).tmod 2 = 1 := by
  rw [Int.tmod_eq_emod hx (by omega)] at h
  rw [Int.tmod_eq_emod (by omega) (by omega)]
  omega

theorem even_add_even {x y : Int} (hx : x.tmod 2 = 0) (hy : y.tmod 2 = 0) :
    (x + y + hdrSize).tmod 2 = 0 := by
  have hx' := Int.dvd_of_tmod_eq_zero hx
  have hy' := Int.dvd_of_tmod_eq_zero hy
  have h8 : hdrSize = (8 : Int) := rfl
  exact Int.tmod_eq_zero_of_dvd (by omega)

theorem even_sub_even {x y : Int} (hx : x.tmod 2 = 0) (hy : y.tmod 2 = 0) :
    (x - y).tmod 2 = 0 := by
  have hx' := Int.dvd_of_tmod_eq_zero hx
  have hy' := Int.dvd_of_tmod_eq_zero hy
  exact Int.tmod_eq_zero_of_dvd (by omega)

theorem mult4_even {x : Int} (h : x.tmod 4 = 0) : x.tmod 2 = 0 := by
  have h' := Int.dvd_of_tmod_eq_zero h
  exact Int.tmod_eq_zero_of_dvd (by omega)

theorem roundBy4_mult4 {size : Int} (h : 0 < size) :
    (roundBy4 size).tmod 4 = 0 ∧ 4 ≤ roundBy4 size := by
  unfold roundBy4
  have hx4 : size.tmod 4 = size % 4 := Int.tmod_eq_emod (by omega) (by omega)
  split
  · rename_i hgt
    rw [hx4] at hgt ⊢
    rw [Int.tmod_eq_emod (by omega) (by omega)]
    omega
  · rename_i hle
    rw [hx4] at hle
    rw [Int.tmod_eq_emod (by omega) (by omega)]
    omega

theorem roundBy4_even {size : Int} (h : 0 < size) : (roundBy4 size).tmod 2 = 0 :=
  mult4_even (roundBy4_mult4 h).1

/-- The truncating byte offset of the split: `hdrSize * ((s4 + hdrSize) / hdrSize)`
lies strictly between 0 and `s4 + hdrSize` (inclusive on the right), as soon
as `s4 ≥ 4`. -/
theorem split_offset_bounds {s4 : Int} (h : 4 ≤ s4) :
    hdrSize ≤ hdrSize * ((s4 + hdrSize).tdiv hdrSize) ∧
      hdrSize * ((s4 + hdrSize).tdiv hdrSize) ≤ s4 + hdrSize := by
  have h1 : (0 : Int) ≤ s4 + hdrSize := by unfold hdrSize; omega
  have h2 : (0 : Int) ≤ hdrSize := by unfold hdrSize; omega
  have hd := Int.tdiv_eq_ediv h1 h2
  rw [hd]
  unfold hdrSize
  omega

/-- The quantity `alloc_size = sizeOfRegion + padsize` is a multiple of the page size no
smaller than either the request or one page. -/
theorem alloc_size_spec {pg sz : Int} (hsz : 0 < sz) (hpg : 0 < pg) :
    pg ∣ sz + padsize pg sz ∧ sz ≤ sz + padsize pg sz ∧ pg ≤ sz + padsize pg sz := by
  unfold padsize
  have hm : sz.tmod pg = sz % pg := Int.tmod_eq_emod (by omega) (by omega)
  have hm0 : 0 ≤ sz % pg := Int.emod_nonneg sz (by omega)
  have hmlt : sz % pg < pg := Int.emod_lt_of_pos sz hpg
  have hdef : sz % pg = sz - pg * (sz / pg) := Int.emod_def sz pg
  have hdiv0 : 0 ≤ pg * (sz / pg) :=
    mul_nonneg (by omega) (Int.ediv_nonneg (by omega) (by omega))
  rw [hm]
  rcases eq_or_lt_of_le hm0 with hz | hpos
  · have hpad : (pg - sz % pg).tmod pg = 0 := by
      rw [← hz, sub_zero]
      exact Int.tmod_eq_zero_of_dvd dvd_rfl
    rw [hpad]
    refine ⟨⟨sz / pg, by omega⟩, by omega, ?_⟩
    have : pg ≤ sz := Int.le_of_dvd hsz ⟨sz / pg, by omega⟩
    omega
  · have hpad : (pg - sz % pg).tmod pg = pg - sz % pg := by
      rw [Int.tmod_eq_emod (by omega) (by omega)]
      exact Int.emod_eq_of_lt (by omega) (by omega)
    rw [hpad]
    have hmul : pg * (sz / pg + 1) = pg * (sz / pg) + pg := by ring
    refine ⟨⟨sz / pg + 1, by omega⟩, by omega, by omega⟩

/-! ## Structural lemmas -/

theorem payload_even {b : Block} (h : b.size_status.tmod 2 = 0) :
    payload b = b.size_status := by
  unfold payload
  rw [h]
  simp

theorem payload_odd {b : Block} (h : b.size_status.tmod 2 = 1) :
    payload b = b.size_status - 1 := by
  unfold payload
  rw [h]
  simp

theorem coverage_append (l1 l2 : List Block) :
    coverage (l1 ++ l2) = coverage l1 + coverage l2 := by
  simp [coverage]

theorem coverage_cons (b : Block) (l : List Block) :
    coverage (b :: l) = blockTotal b + coverage l := by
  simp [coverage]

theorem findBlock_some {a : Int} {bs pre post : List Block} {b : Block}
    (h : findBlock a bs = some (pre, b, post)) :
    bs = pre ++ b :: post ∧ b.addr = a ∧ ∀ x ∈ pre, x.addr ≠ a := by
  induction bs generalizing pre post b with
  | nil => simp [findBlock] at h
  | cons c rest ih =>
    unfold findBlock at h
    by_cases hc : c.addr = a
    · simp [hc] at h
      obtain ⟨h1, h2, h3⟩ := h
      subst h1; subst h2; subst h3
      simp [hc]
    · rw [if_neg (by simpa using hc)] at h
      cases hfr : findBlock a rest with
      | none => rw [hfr] at h; simp at h
      | some t =>
        obtain ⟨pre', x, post'⟩ := t
        rw [hfr] at h
        simp at h
        obtain ⟨h1, h2, h3⟩ := h
        obtain ⟨e1, e2, e3⟩ := ih hfr
        subst h1; subst h2; subst h3
        refine ⟨by rw [e1]; simp, e2, ?_⟩
        intro x hx
        rcases List.mem_cons.mp hx with hx | hx
        · subst hx; exact hc
        · exact e3 x hx

theorem findBlock_append {a : Int} {pre post : List Block} {b : Block}
    (hpre : ∀ x ∈ pre, x.addr ≠ a) (hb : b.addr = a) :
    findBlock a (pre ++ b :: post) = some (pre, b, post) := by
  induction pre with
  | nil => simp [findBlock, hb]
  | cons c pre' ih =>
    have hc : c.addr ≠ a := hpre c (List.mem_cons_self c pre')
    have ih' := ih (fun x hx => hpre x (List.mem_cons_of_mem c hx))
    simp only [List.cons_append]
    unfold findBlock
    rw [if_neg (by simpa using hc), ih']

theorem findBlock_none {a : Int} {bs : List Block}
    (h : ∀ x ∈ bs, x.addr ≠ a) : findBlock a bs = none := by
  induction bs with
  | nil => rfl
  | cons c rest ih =>
    have hc : c.addr ≠ a := h c (List.mem_cons_self c rest)
    have ih' := ih (fun x hx => h x (List.mem_cons_of_mem c hx))
    unfold findBlock
    rw [if_neg (by simpa using hc), ih']

theorem freeBack_concat {prev b2 : Block} : ∀ (preI : List Block) (post2 : List Block),
    freeBack (preI ++ [prev]) b2 post2 =
      preI ++ (if prev.size_status.tmod 2 == 0 then
          ⟨prev.addr, prev.size_status + b2.size_status + hdrSize⟩ :: post2
        else prev :: b2 :: post2) := by
  intro preI
  induction preI with
  | nil => intro post2; simp [freeBack]
  | cons q preI' ih =>
    intro post2
    have step : freeBack ((q :: preI') ++ [prev]) b2 post2
        = q :: freeBack (preI' ++ [prev]) b2 post2 := by
      cases preI' with
      | nil => rfl
      | cons r preI'' => rfl
    rw [step, ih, List.cons_append]

theorem allocScan_fst (s4 swh : Int) : ∀ bs : List Block,
    (allocScan s4 swh bs).1 = (bs.find? (fits swh)).map (fun b => b.addr + hdrSize) := by
  intro bs
  induction bs with
  | nil => rfl
  | cons b rest ih =>
    cases h2 : (b.size_status.tmod 2 == 0) with
    | true =>
      by_cases hge : b.size_status ≥ swh
      · have hf : fits swh b = true := by simp [fits, hge, h2]
        by_cases hsp : b.size_status - swh ≥ hdrSize + 4
        · simp [allocScan, h2, hge, hsp, List.find?_cons_of_pos, hf]
        · simp [allocScan, h2, hge, hsp, List.find?_cons_of_pos, hf]
      · have hf : fits swh b = false := by simp [fits, hge]
        simp [allocScan, h2, hge, List.find?_cons_of_neg, hf, ih]
    | false =>
      have hf : fits swh b = false := by simp [fits, h2]
      simp [allocScan, h2, List.find?_cons_of_neg, hf, ih]

theorem allocScan_none_mut (s4 swh : Int) : ∀ bs : List Block,
    (allocScan s4 swh bs).1 = none → (allocScan s4 swh bs).2 = bs := by
  intro bs
  induction bs with
  | nil => intro _; rfl
  | cons b rest ih =>
    intro h
    cases h2 : (b.size_status.tmod 2 == 0) with
    | true =>
      by_cases hge : b.size_status ≥ swh
      · by_cases hsp : b.size_status - swh ≥ hdrSize + 4
        · simp [allocScan, h2, hge, hsp] at h
        · simp [allocScan, h2, hge, hsp] at h
      · simp only [allocScan, h2, if_true, if_neg hge] at h ⊢
        exact congrArg (b :: ·) (ih h)
    | false =>
      simp only [allocScan, h2, Bool.false_eq_true, if_false] at h ⊢
      exact congrArg (b :: ·) (ih h)

theorem allocScan_some_shape (s4 swh : Int) : ∀ {bs bs' : List Block} {a : Int},
    allocScan s4 swh bs = (some a, bs') →
    ∃ pre b post, bs = pre ++ b :: post ∧ (∀ x ∈ pre, fits swh x = false) ∧
      fits swh b = true ∧ a = b.addr + hdrSize ∧
      ((hdrSize + 4 ≤ b.size_status - swh ∧
          bs' = pre ++ ⟨b.addr, s4 + 1⟩ ::
            ⟨b.addr + hdrSize * (swh.tdiv hdrSize), b.size_status - swh⟩ :: post) ∨
        (b.size_status - swh < hdrSize + 4 ∧
          bs' = pre ++ ⟨b.addr, b.size_status + 1⟩ :: post)) := by
  intro bs
  induction bs with
  | nil => intro bs' a h; simp [allocScan] at h
  | cons b rest ih =>
    intro bs' a h
    cases h2 : (b.size_status.tmod 2 == 0) with
    | true =>
      by_cases hge : b.size_status ≥ swh
      · by_cases hsp : b.size_status - swh ≥ hdrSize + 4
        · simp only [allocScan, h2, if_true, if_pos hge, if_pos hsp, Prod.mk.injEq,
            Option.some.injEq] at h
          refine ⟨[], b, rest, by simp, by simp, by simp [fits, h2, hge], h.1.symm, ?_⟩
          exact Or.inl ⟨hsp, by simp [h.2.symm]⟩
        · simp only [allocScan, h2, if_true, if_pos hge, if_neg hsp, Prod.mk.injEq,
            Option.some.injEq] at h
          refine ⟨[], b, rest, by simp, by simp, by simp [fits, h2, hge], h.1.symm, ?_⟩
          exact Or.inr ⟨by omega, by simp [h.2.symm]⟩
      · simp only [allocScan, h2, if_true, if_neg hge] at h
        have hsplit : (allocScan s4 swh rest).1 = some a ∧
            b :: (allocScan s4 swh rest).2 = bs' := by
          constructor
          · exact congrArg Prod.fst h
          · exact congrArg Prod.snd h
        obtain ⟨h1, hrest2⟩ := hsplit
        have hscan : allocScan s4 swh rest = (some a, (allocScan s4 swh rest).2) := by
          rw [← h1]
        obtain ⟨pre, c, post, e1, e2, e3, e4, e5⟩ := ih hscan
        refine ⟨b :: pre, c, post, by simp [e1], ?_, e3, e4, ?_⟩
        · intro x hx
          rcases List.mem_cons.mp hx with hx | hx
          · subst hx
            simp [fits, hge]
          · exact e2 x hx
        · rcases e5 with ⟨hc, hbs⟩ | ⟨hc, hbs⟩
          · exact Or.inl ⟨hc, by rw [← hrest2, hbs]; simp⟩
          · exact Or.inr ⟨hc, by rw [← hrest2, hbs]; simp⟩
    | false =>
      simp only [allocScan, h2, Bool.false_eq_true, if_false] at h
      have h1 : (allocScan s4 swh rest).1 = some a := congrArg Prod.fst h
      have hrest2 : b :: (allocScan s4 swh rest).2 = bs' := congrArg Prod.snd h
      have hscan : allocScan s4 swh rest = (some a, (allocScan s4 swh rest).2) := by
        rw [← h1]
      obtain ⟨pre, c, post, e1, e2, e3, e4, e5⟩ := ih hscan
      refine ⟨b :: pre, c, post, by simp [e1], ?_, e3, e4, ?_⟩
      · intro x hx
        rcases List.mem_cons.mp hx with hx | hx
        · subst hx
          simp [fits, h2]
        · exact e2 x hx
      · rcases e5 with ⟨hc, hbs⟩ | ⟨hc, hbs⟩
        · exact Or.inl ⟨hc, by rw [← hrest2, hbs]; simp⟩
        · exact Or.inr ⟨hc, by rw [← hrest2, hbs]; simp⟩

theorem swh_even {s4 : Int} (hs4 : s4.tmod 2 = 0) : (s4 + hdrSize).tmod 2 = 0 := by
  have h4 := Int.dvd_of_tmod_eq_zero hs4
  have h8 : hdrSize = (8 : Int) := rfl
  exact Int.tmod_eq_zero_of_dvd (by omega)

theorem coverage_nil : coverage [] = 0 := rfl

theorem freeBack_coverage {b2 : Block} (hb2 : b2.size_status.tmod 2 = 0) :
    ∀ (pre post2 : List Block),
      coverage (freeBack pre b2 post2) = coverage pre + blockTotal b2 + coverage post2 := by
  intro pre post2
  rcases List.eq_nil_or_concat pre with hnil | ⟨preI, prev, hcat⟩
  · subst hnil
    show coverage (b2 :: post2) = coverage [] + blockTotal b2 + coverage post2
    rw [coverage_cons, coverage_nil]
    ring
  · rw [List.concat_eq_append] at hcat
    subst hcat
    rw [freeBack_concat, coverage_append, coverage_append]
    cases hp : (prev.size_status.tmod 2 == 0) with
    | true =>
      have hpev : prev.size_status.tmod 2 = 0 := by simpa using hp
      rw [if_pos (by simp [hp])]
      rw [coverage_cons, coverage_cons, coverage_nil]
      have hm : (prev.size_status + b2.size_status + hdrSize).tmod 2 = 0 :=
        even_add_even hpev hb2
      have e1 : blockTotal ⟨prev.addr, prev.size_status + b2.size_status + hdrSize⟩
          = blockTotal prev + blockTotal b2 := by
        unfold blockTotal
        rw [payload_even hm, payload_even hpev, payload_even hb2]
        ring
      rw [e1]
      ring
    | false =>
      rw [if_neg (by simp [hp])]
      rw [coverage_cons, coverage_cons, coverage_cons, coverage_nil]
      ring

theorem allocScan_coverage {s4 : Int} (hs4 : s4.tmod 2 = 0) (hs4n : 0 ≤ s4) :
    ∀ bs : List Block, coverage (allocScan s4 (s4 + hdrSize) bs).2 = coverage bs := by
  intro bs
  induction bs with
  | nil => rfl
  | cons b rest ih =>
    cases h2 : (b.size_status.tmod 2 == 0) with
    | true =>
      have hbev : b.size_status.tmod 2 = 0 := by simpa using h2
      by_cases hge : b.size_status ≥ s4 + hdrSize
      · by_cases hsp : b.size_status - (s4 + hdrSize) ≥ hdrSize + 4
        · simp only [allocScan, h2, if_true, if_pos hge, if_pos hsp]
          rw [coverage_cons, coverage_cons, coverage_cons]
          have hodd : (s4 + 1).tmod 2 = 1 := even_succ_odd hs4n hs4
          have hnew : (b.size_status - (s4 + hdrSize)).tmod 2 = 0 :=
            even_sub_even hbev (swh_even hs4)
          unfold blockTotal
          rw [payload_odd hodd, payload_even hnew, payload_even hbev]
          ring
        · simp only [allocScan, h2, if_true, if_pos hge, if_neg hsp]
          rw [coverage_cons, coverage_cons]
          have hodd : (b.size_status + 1).tmod 2 = 1 := by
            have hbn : 0 ≤ b.size_status := by
              have h8 : hdrSize = (8 : Int) := rfl
              omega
            exact even_succ_odd hbn hbev
          unfold blockTotal
          rw [payload_odd hodd, payload_even hbev]
          ring
      · simp only [allocScan, h2, if_true, if_neg hge]
        rw [coverage_cons, coverage_cons, ih]
    | false =>
      simp only [allocScan, h2, Bool.false_eq_true, if_false]
      rw [coverage_cons, coverage_cons, ih]

theorem mem_Alloc_coverage (bs : List Block) (size : Int) :
    coverage (mem_Alloc bs size).2 = coverage bs := by
  unfold mem_Alloc
  by_cases hsz : size ≤ 0
  · rw [if_pos hsz]
  · rw [if_neg hsz]
    have hpos : 0 < size := by omega
    have hm := roundBy4_mult4 hpos
    exact allocScan_coverage (roundBy4_even hpos) (by omega) bs

theorem mem_Free_coverage (bs : List Block) (p : Int) :
    coverage (mem_Free bs p).2 = coverage bs := by
  unfold mem_Free
  by_cases hp : p == 0
  · rw [if_pos hp]
  · rw [if_neg hp]
    cases hfb : findBlock (p - hdrSize) bs with
    | none => rfl
    | some t =>
      obtain ⟨pre, b, post⟩ := t
      obtain ⟨hbs, hba, hpre⟩ := findBlock_some hfb
      dsimp only
      cases hodd : (b.size_status.tmod 2 == 1) with
      | false =>
        rw [if_pos (show (!false) = true from rfl), hbs]
      | true =>
        have hob : b.size_status.tmod 2 = 1 := by simpa using hodd
        have hb1 : (b.size_status - 1).tmod 2 = 0 := odd_pred_even hob
        rw [if_neg (show ¬((!true) = true) by decide)]
        have hbt : blockTotal b = blockTotal ⟨b.addr, b.size_status - 1⟩ := by
          unfold blockTotal
          rw [payload_odd hob, payload_even hb1]
        cases post with
        | nil =>
          show coverage (freeBack pre ⟨b.addr, b.size_status - 1⟩ []) = coverage bs
          rw [freeBack_coverage hb1, hbs, coverage_append, coverage_cons, ← hbt,
            coverage_nil]
          ring
        | cons n post2 =>
          dsimp only
          cases hn : (n.size_status.tmod 2 == 0) with
          | true =>
            have hnev : n.size_status.tmod 2 = 0 := by simpa using hn
            rw [if_pos (show true = true from rfl)]
            have hmev : (b.size_status - 1 + n.size_status + hdrSize).tmod 2 = 0 :=
              even_add_even hb1 hnev
            show coverage (freeBack pre
                ⟨b.addr, b.size_status - 1 + n.size_status + hdrSize⟩ post2) = coverage bs
            rw [freeBack_coverage hmev, hbs, coverage_append, coverage_cons, coverage_cons]
            have e1 : blockTotal ⟨b.addr, b.size_status - 1 + n.size_status + hdrSize⟩
                = blockTotal b + blockTotal n := by
              unfold blockTotal
              rw [payload_even hmev, payload_odd hob, payload_even hnev]
              ring
            rw [e1]
            ring
          | false =>
            rw [if_neg (show ¬(false = true) by decide)]
            show coverage (freeBack pre ⟨b.addr, b.size_status - 1⟩ (n :: post2)) = coverage bs
            rw [freeBack_coverage hb1, hbs, coverage_append, coverage_cons, coverage_cons,
              coverage_cons, ← hbt]
            ring

/-- Full characterisation of `Mem_Free` at a managed payload address: the
list decomposes as `pre ++ b :: post` around the recovered header, and the
call either fails on a clear flag or clears the flag and coalesces. -/
theorem mem_Free_eq {pre post : List Block} {b : Block} {p : Int}
    (hp : p ≠ 0) (hba : b.addr = p - hdrSize)
    (hpre : ∀ x ∈ pre, x.addr ≠ p - hdrSize) :
    mem_Free (pre ++ b :: post) p =
      if b.size_status.tmod 2 = 1 then
        match post with
        | [] => ((0 : Int), freeBack pre ⟨b.addr, b.size_status - 1⟩ [])
        | n :: post' =>
          if n.size_status.tmod 2 = 0 then
            ((0 : Int), freeBack pre ⟨b.addr, b.size_status - 1 + n.size_status + hdrSize⟩ post')
          else ((0 : Int), freeBack pre ⟨b.addr, b.size_status - 1⟩ (n :: post'))
      else ((-1 : Int), pre ++ b :: post) := by
  unfold mem_Free
  rw [if_neg (by simp [hp]), findBlock_append hpre hba]
  dsimp only
  by_cases hodd : b.size_status.tmod 2 = 1
  · rw [if_neg (by simp [hodd]), if_pos hodd]
    cases post with
    | nil => rfl
    | cons n post' =>
      dsimp only
      by_cases hn : n.size_status.tmod 2 = 0
      · rw [if_pos (by simp [hn]), if_pos hn]
      · rw [if_neg (by simp [hn]), if_neg hn]
  · rw [if_pos (by simp [hodd]), if_neg hodd]

theorem mem_Init_fail_of_allocated {s : MemState} {f m : Bool} {base pg sz : Int}
    (h : s.allocated_once = true) : mem_Init s f m base pg sz = (-1, s) := by
  unfold mem_Init
  rw [if_pos h]

theorem mem_Init_success_state {s : MemState} {f m : Bool} {base pg sz : Int}
    (h : (mem_Init s f m base pg sz).1 = 0) :
    (mem_Init s f m base pg sz).2.allocated_once = true := by
  unfold mem_Init at h ⊢
  split_ifs at h ⊢ <;> simp_all

theorem stepOp_allocated {s : MemState} (op : Op) (h : s.allocated_once = true) :
    (stepOp s op).allocated_once = true := by
  cases op with
  | opInit f m base pg sz => simp [stepOp, mem_Init_fail_of_allocated h, h]
  | opAlloc sz => simpa [stepOp] using h
  | opFree p => simpa [stepOp] using h

theorem run_allocated {s : MemState} (ops : List Op) (h : s.allocated_once = true) :
    (run s ops).allocated_once = true := by
  induction ops generalizing s with
  | nil => simpa [run] using h
  | cons op ops ih =>
    have h1 := stepOp_allocated op h
    simpa [run] using ih h1

theorem sizesOK_cons {b : Block} {l : List Block} :
    sizesOK (b :: l) ↔ (0 ≤ payload b ∧ (payload b).tmod 4 = 0) ∧ sizesOK l := by
  unfold sizesOK
  simp

theorem sizesOK_append {l1 l2 : List Block} :
    sizesOK (l1 ++ l2) ↔ sizesOK l1 ∧ sizesOK l2 := by
  unfold sizesOK
  constructor
  · intro h
    exact ⟨fun b hb => h b (List.mem_append_left l2 hb),
      fun b hb => h b (List.mem_append_right l1 hb)⟩
  · intro h b hb
    rcases List.mem_append.mp hb with hb | hb
    · exact h.1 b hb
    · exact h.2 b hb

theorem mult4_sub_swh {x y : Int} (hx : x.tmod 4 = 0) (hy : y.tmod 4 = 0) :
    (x - (y + hdrSize)).tmod 4 = 0 := by
  have hx' := Int.dvd_of_tmod_eq_zero hx
  have hy' := Int.dvd_of_tmod_eq_zero hy
  have h8 : hdrSize = (8 : Int) := rfl
  exact Int.tmod_eq_zero_of_dvd (by omega)

theorem mult4_add_hdr {x y : Int} (hx : x.tmod 4 = 0) (hy : y.tmod 4 = 0) :
    (x + y + hdrSize).tmod 4 = 0 := by
  have hx' := Int.dvd_of_tmod_eq_zero hx
  have hy' := Int.dvd_of_tmod_eq_zero hy
  have h8 : hdrSize = (8 : Int) := rfl
  exact Int.tmod_eq_zero_of_dvd (by omega)

theorem allocScan_sizesOK {s4 : Int} (hs4 : s4.tmod 4 = 0) (hs4n : 4 ≤ s4) :
    ∀ bs : List Block, sizesOK bs → sizesOK (allocScan s4 (s4 + hdrSize) bs).2 := by
  intro bs
  induction bs with
  | nil => intro h; exact h
  | cons b rest ih =>
    intro h
    obtain ⟨⟨hbp, hbp4⟩, hrest⟩ := sizesOK_cons.mp h
    cases h2 : (b.size_status.tmod 2 == 0) with
    | true =>
      have hbev : b.size_status.tmod 2 = 0 := by simpa using h2
      have hpayb : payload b = b.size_status := payload_even hbev
      by_cases hge : b.size_status ≥ s4 + hdrSize
      · by_cases hsp : b.size_status - (s4 + hdrSize) ≥ hdrSize + 4
        · simp only [allocScan, h2, if_true, if_pos hge, if_pos hsp]
          rw [sizesOK_cons, sizesOK_cons]
          have hodd : (s4 + 1).tmod 2 = 1 := even_succ_odd (by omega) (mult4_even hs4)
          have hnew : (b.size_status - (s4 + hdrSize)).tmod 2 = 0 :=
            even_sub_even hbev (swh_even (mult4_even hs4))
          have h8 : hdrSize = (8 : Int) := rfl
          refine ⟨⟨?_, ?_⟩, ⟨?_, ?_⟩, hrest⟩
          · rw [payload_odd hodd]; dsimp only; omega
          · rw [payload_odd hodd]; dsimp only; simpa using hs4
          · rw [payload_even hnew]; dsimp only; omega
          · rw [payload_even hnew]
            dsimp only
            exact mult4_sub_swh (by rw [← hpayb]; exact hbp4) hs4
        · simp only [allocScan, h2, if_true, if_pos hge, if_neg hsp]
          rw [sizesOK_cons]
          have h8 : hdrSize = (8 : Int) := rfl
          have hodd : (b.size_status + 1).tmod 2 = 1 := even_succ_odd (by omega) hbev
          refine ⟨⟨?_, ?_⟩, hrest⟩
          · rw [payload_odd hodd]; dsimp only; omega
          · rw [payload_odd hodd]
            dsimp only
            simpa [hpayb] using hbp4
      · simp only [allocScan, h2, if_true, if_neg hge]
        rw [sizesOK_cons]
        exact ⟨⟨hbp, hbp4⟩, ih hrest⟩
    | false =>
      simp only [allocScan, h2, Bool.false_eq_true, if_false]
      rw [sizesOK_cons]
      exact ⟨⟨hbp, hbp4⟩, ih hrest⟩

theorem freeBack_sizesOK {b2 : Block} (hb2 : b2.size_status.tmod 2 = 0)
    (hb2n : 0 ≤ b2.size_status) (hb24 : b2.size_status.tmod 4 = 0) :
    ∀ {pre post2 : List Block}, sizesOK pre → sizesOK post2 →
      sizesOK (freeBack pre b2 post2) := by
  intro pre post2 hpre hpost
  have hb2p : payload b2 = b2.size_status := payload_even hb2
  rcases List.eq_nil_or_concat pre with hnil | ⟨preI, prev, hcat⟩
  · subst hnil
    show sizesOK (b2 :: post2)
    rw [sizesOK_cons, hb2p]
    exact ⟨⟨hb2n, hb24⟩, hpost⟩
  · rw [List.concat_eq_append] at hcat
    subst hcat
    rw [freeBack_concat]
    rw [sizesOK_append] at hpre ⊢
    obtain ⟨hpreI, hprev⟩ := hpre
    obtain ⟨⟨hprevn, hprev4⟩, _⟩ := sizesOK_cons.mp hprev
    refine ⟨hpreI, ?_⟩
    cases hp : (prev.size_status.tmod 2 == 0) with
    | true =>
      have hpev : prev.size_status.tmod 2 = 0 := by simpa using hp
      have hprevp : payload prev = prev.size_status := payload_even hpev
      rw [if_pos (by simp [hp]), sizesOK_cons]
      have hm : (prev.size_status + b2.size_status + hdrSize).tmod 2 = 0 :=
        even_add_even hpev hb2
      have h8 : hdrSize = (8 : Int) := rfl
      refine ⟨⟨?_, ?_⟩, hpost⟩
      · rw [payload_even hm]; dsimp only; rw [hprevp] at hprevn; omega
      · rw [payload_even hm]
        dsimp only
        exact mult4_add_hdr (by rw [← hprevp]; exact hprev4) hb24
    | false =>
      rw [if_neg (by simp [hp]), sizesOK_cons, sizesOK_cons, hb2p]
      exact ⟨⟨hprevn, hprev4⟩, ⟨hb2n, hb24⟩, hpost⟩

theorem mem_Free_sizesOK (bs : List Block) (p : Int) (h : sizesOK bs) :
    sizesOK (mem_Free bs p).2 := by
  unfold mem_Free
  by_cases hp : p == 0
  · rw [if_pos hp]; exact h
  · rw [if_neg hp]
    cases hfb : findBlock (p - hdrSize) bs with
    | none => exact h
    | some t =>
      obtain ⟨pre, b, post⟩ := t
      obtain ⟨hbs, hba, hpre⟩ := findBlock_some hfb
      dsimp only
      rw [hbs] at h
      rw [sizesOK_append, sizesOK_cons] at h
      obtain ⟨hpreOK, ⟨hbn, hb4⟩, hpostOK⟩ := h
      cases hodd : (b.size_status.tmod 2 == 1) with
      | false =>
        rw [if_pos (show (!false) = true from rfl)]
        rw [hbs] at hfb
        rw [sizesOK_append, sizesOK_cons]
        exact ⟨hpreOK, ⟨hbn, hb4⟩, hpostOK⟩
      | true =>
        have hob : b.size_status.tmod 2 = 1 := by simpa using hodd
        have hb1 : (b.size_status - 1).tmod 2 = 0 := odd_pred_even hob
        have hpb : payload b = b.size_status - 1 := payload_odd hob
        rw [hpb] at hbn hb4
        rw [if_neg (show ¬((!true) = true) by decide)]
        cases post with
        | nil =>
          show sizesOK (freeBack pre ⟨b.addr, b.size_status - 1⟩ [])
          exact freeBack_sizesOK hb1 hbn hb4 hpreOK (by intro x hx; simp at hx)
        | cons n post2 =>
          obtain ⟨⟨hnn, hn4⟩, hpost2OK⟩ := sizesOK_cons.mp hpostOK
          dsimp only
          cases hn : (n.size_status.tmod 2 == 0) with
          | true =>
            have hnev : n.size_status.tmod 2 = 0 := by simpa using hn
            have hpn : payload n = n.size_status := payload_even hnev
            rw [hpn] at hnn hn4
            rw [if_pos (show true = true from rfl)]
            have hmev : (b.size_status - 1 + n.size_status + hdrSize).tmod 2 = 0 :=
              even_add_even hb1 hnev
            have h8 : hdrSize = (8 : Int) := rfl
            exact freeBack_sizesOK hmev (by dsimp only; omega) (mult4_add_hdr hb4 hn4)
              hpreOK hpost2OK
          | false =>
            rw [if_neg (show ¬(false = true) by decide)]
            exact freeBack_sizesOK hb1 hbn hb4 hpreOK
              (sizesOK_cons.mpr ⟨⟨hnn, hn4⟩, hpost2OK⟩)

theorem isFree_iff {b : Block} : isFree b = true ↔ b.size_status.tmod 2 = 0 := by
  unfold isFree
  simp

theorem notBothFree_of_left {a b : Block} (h : isFree a = false) : notBothFree a b := by
  intro hc
  rw [h] at hc
  exact absurd hc.1 (by simp)

theorem notBothFree_of_right {a b : Block} (h : isFree b = false) : notBothFree a b := by
  intro hc
  rw [h] at hc
  exact absurd hc.2 (by simp)

theorem busy_of_notBothFree_left {a b : Block} (h : notBothFree a b)
    (hb : isFree b = true) : isFree a = false := by
  cases ha : isFree a with
  | false => rfl
  | true => exact absurd ⟨ha, hb⟩ h

theorem busy_of_notBothFree_right {a b : Block} (h : notBothFree a b)
    (ha : isFree a = true) : isFree b = false := by
  cases hb : isFree b with
  | false => rfl
  | true => exact absurd ⟨ha, hb⟩ h

theorem freeBack_noAdj {b2 : Block} (hb2 : isFree b2 = true)
    {pre post2 : List Block}
    (hpre : List.Chain' notBothFree pre)
    (hpost : List.Chain' notBothFree post2)
    (hhead : ∀ y ∈ post2.head?, isFree y = false) :
    List.Chain' notBothFree (freeBack pre b2 post2) := by
  rcases List.eq_nil_or_concat pre with hnil | ⟨preI, prev, hcat⟩
  · subst hnil
    show List.Chain' notBothFree (b2 :: post2)
    rw [List.chain'_cons']
    exact ⟨fun y hy => notBothFree_of_right (hhead y hy), hpost⟩
  · rw [List.concat_eq_append] at hcat
    subst hcat
    rw [freeBack_concat]
    rw [List.chain'_append] at hpre
    obtain ⟨hpreI, _, hlink⟩ := hpre
    cases hp : (prev.size_status.tmod 2 == 0) with
    | true =>
      have hpf : isFree prev = true := by simpa [isFree] using hp
      have hxbusy : ∀ x ∈ preI.getLast?, isFree x = false := by
        intro x hx
        exact busy_of_notBothFree_left (hlink x hx prev (by simp)) hpf
      rw [if_pos (by simp [hp]), List.chain'_append]
      have hmf : isFree ⟨prev.addr, prev.size_status + b2.size_status + hdrSize⟩ = true := by
        rw [isFree_iff]
        exact even_add_even (isFree_iff.mp hpf) (isFree_iff.mp hb2)
      refine ⟨hpreI, ?_, ?_⟩
      · rw [List.chain'_cons']
        exact ⟨fun y hy => notBothFree_of_right (hhead y hy), hpost⟩
      · intro x hx y hy
        simp at hy
        subst hy
        exact notBothFree_of_left (hxbusy x hx)
    | false =>
      have hpb : isFree prev = false := by simpa [isFree] using hp
      rw [if_neg (by simp [hp]), List.chain'_append]
      refine ⟨hpreI, ?_, ?_⟩
      · rw [List.chain'_cons']
        refine ⟨?_, ?_⟩
        · intro y hy
          simp at hy
          subst hy
          exact notBothFree_of_left hpb
        · rw [List.chain'_cons']
          exact ⟨fun y hy => notBothFree_of_right (hhead y hy), hpost⟩
      · intro x hx y hy
        simp at hy
        subst hy
        exact hlink x hx prev (by simp)

theorem mem_Free_noAdjacentFree (bs : List Block) (p : Int) (h : noAdjacentFree bs)
    (hs : (mem_Free bs p).1 = 0) : noAdjacentFree (mem_Free bs p).2 := by
  unfold mem_Free at hs ⊢
  by_cases hp : p == 0
  · rw [if_pos hp] at hs
    simp at hs
  · rw [if_neg hp] at hs ⊢
    cases hfb : findBlock (p - hdrSize) bs with
    | none =>
      rw [hfb] at hs
      simp at hs
    | some t =>
      obtain ⟨pre, b, post⟩ := t
      obtain ⟨hbs, hba, hpre⟩ := findBlock_some hfb
      rw [hfb] at hs
      dsimp only at hs ⊢
      rw [hbs] at h
      rw [noAdjacentFree, List.chain'_append] at h
      obtain ⟨hpreC, hbpostC, hlinkC⟩ := h
      cases hodd : (b.size_status.tmod 2 == 1) with
      | false =>
        rw [hodd] at hs
        simp at hs
      | true =>
        have hob : b.size_status.tmod 2 = 1 := by simpa using hodd
        have hb1 : (b.size_status - 1).tmod 2 = 0 := odd_pred_even hob
        rw [if_neg (show ¬((!true) = true) by decide)]
        cases post with
        | nil =>
          show List.Chain' notBothFree (freeBack pre ⟨b.addr, b.size_status - 1⟩ [])
          refine freeBack_noAdj (by rw [isFree_iff]; exact hb1) hpreC List.chain'_nil ?_
          intro y hy
          simp at hy
        | cons n post2 =>
          dsimp only
          have hnpostC : List.Chain' notBothFree (n :: post2) := hbpostC.tail
          cases hn : (n.size_status.tmod 2 == 0) with
          | true =>
            have hnf : isFree n = true := by simpa [isFree] using hn
            rw [if_pos (show true = true from rfl)]
            refine freeBack_noAdj ?_ hpreC hnpostC.tail ?_
            · rw [isFree_iff]
              exact even_add_even hb1 (isFree_iff.mp hnf)
            · intro y hy
              have := (List.chain'_cons'.mp hnpostC).1 y hy
              exact busy_of_notBothFree_right this hnf
          | false =>
            have hnb : isFree n = false := by simpa [isFree] using hn
            rw [if_neg (show ¬(false = true) by decide)]
            refine freeBack_noAdj (by rw [isFree_iff]; exact hb1) hpreC hnpostC ?_
            intro y hy
            simp at hy
            subst hy
            exact hnb

theorem tiled_chain_lt : ∀ {bs : List Block}, tiled bs → sizesOK bs →
    List.Chain' (fun a b => a.addr < b.addr) bs := by
  intro bs
  induction bs with
  | nil => intro _ _; exact List.chain'_nil
  | cons b rest ih =>
    intro ht hs
    obtain ⟨hh, ht'⟩ := List.chain'_cons'.mp ht
    obtain ⟨⟨hbn, _⟩, hrest⟩ := sizesOK_cons.mp hs
    rw [List.chain'_cons']
    refine ⟨?_, ih ht' hrest⟩
    intro y hy
    have hy' := hh y hy
    have h8 : hdrSize = (8 : Int) := rfl
    omega

theorem tiled_sorted {bs : List Block} (ht : tiled bs) (hs : sizesOK bs) :
    List.Pairwise (fun a b => a.addr < b.addr) bs :=
  List.chain'_iff_pairwise.mp (tiled_chain_lt ht hs)

theorem mem_Free_not_found {bs : List Block} {p : Int} (hp : p ≠ 0)
    (h : ∀ x ∈ bs, x.addr ≠ p - hdrSize) : mem_Free bs p = (-1, bs) := by
  unfold mem_Free
  rw [if_neg (by simp [hp]), findBlock_none h]

/-- Freeing the same payload address again right after a successful free
fails: the coalesced block at that address is already marked free (or has
been absorbed into its predecessor, leaving no block at that address). -/
theorem free_then_free {pre post2 : List Block} {bm : Block} {p : Int}
    (hbm : bm.size_status.tmod 2 = 0)
    (hp : p ≠ 0) (hba : bm.addr = p - hdrSize)
    (hpre : ∀ x ∈ pre, x.addr < bm.addr)
    (hpost2 : ∀ y ∈ post2, bm.addr < y.addr) :
    (mem_Free (freeBack pre bm post2) p).1 = -1 := by
  have hnotodd : ¬ bm.size_status.tmod 2 = 1 := by omega
  rcases List.eq_nil_or_concat pre with hnil | ⟨preI, prev, hcat⟩
  · subst hnil
    show (mem_Free (bm :: post2) p).1 = -1
    have e := @mem_Free_eq [] post2 bm p hp hba (by simp)
    simp only [List.nil_append] at e
    rw [e, if_neg hnotodd]
  · rw [List.concat_eq_append] at hcat
    subst hcat
    rw [freeBack_concat]
    have hprevmem : prev ∈ preI ++ [prev] := by simp
    have hprevlt : prev.addr < bm.addr := hpre prev hprevmem
    cases hpv : (prev.size_status.tmod 2 == 0) with
    | true =>
      rw [if_pos (by simp [hpv])]
      rw [mem_Free_not_found hp ?hall]
      case hall =>
        intro x hx
        rw [← hba]
        rcases List.mem_append.mp hx with hx | hx
        · have := hpre x (List.mem_append_left _ hx)
          omega
        · rcases List.mem_cons.mp hx with hx | hx
          · subst hx
            dsimp only
            omega
          · have := hpost2 x hx
            omega
    | false =>
      rw [if_neg (by simp [hpv])]
      have e := @mem_Free_eq (preI ++ [prev]) post2 bm p hp hba ?hpre'
      case hpre' =>
        intro x hx
        rw [← hba]
        have := hpre x hx
        omega
      rw [List.append_assoc] at e
      simp only [List.cons_append, List.singleton_append, List.nil_append] at e ⊢
      rw [e, if_neg hnotodd]

theorem fits_spec {swh : Int} {b : Block} (h : fits swh b = true) :
    b.size_status.tmod 2 = 0 ∧ swh ≤ b.size_status := by
  unfold fits at h
  simp at h
  exact h

/-- After a successful allocation from a tiled, well-sized list, the first
`Mem_Free` on the returned address succeeds and an immediate second
`Mem_Free` on the same address fails. -/
theorem alloc_free_free {bs bs' : List Block} {size a : Int}
    (ht : tiled bs) (hsOK : sizesOK bs)
    (haddr : ∀ x ∈ bs, 0 ≤ x.addr)
    (hsz : 0 < size)
    (halloc : mem_Alloc bs size = (some a, bs')) :
    (mem_Free bs' a).1 = 0 ∧ (mem_Free (mem_Free bs' a).2 a).1 = -1 := by
  unfold mem_Alloc at halloc
  rw [if_neg (by omega)] at halloc
  obtain ⟨pre, b, post, hbs, hprefits, hfitsb, ha, hcase⟩ :=
    allocScan_some_shape _ _ halloc
  obtain ⟨hbev, hge⟩ := fits_spec hfitsb
  obtain ⟨hs44, hs4ge⟩ := roundBy4_mult4 hsz
  have hs4ev : (roundBy4 size).tmod 2 = 0 := mult4_even hs44
  have h8 : hdrSize = (8 : Int) := rfl
  have hsorted := tiled_sorted ht hsOK
  rw [hbs, List.pairwise_append] at hsorted
  obtain ⟨_, hpostpw, hcross⟩ := hsorted
  have hprelt : ∀ x ∈ pre, x.addr < b.addr := fun x hx =>
    hcross x hx b (List.mem_cons_self _ _)
  have hpostlt : ∀ y ∈ post, b.addr < y.addr := by
    intro y hy
    exact (List.pairwise_cons.mp hpostpw).1 y hy
  have hban : 0 ≤ b.addr :=
    haddr b (by rw [hbs]; exact List.mem_append_right _ (List.mem_cons_self _ _))
  have hane : a ≠ 0 := by omega
  have hpx : ∀ x ∈ pre, x.addr ≠ a - hdrSize := by
    intro x hx
    have := hprelt x hx
    omega
  rcases hcase with ⟨hsp, hbs'⟩ | ⟨hsp, hbs'⟩
  · -- split case
    have hAodd : (roundBy4 size + 1).tmod 2 = 1 := even_succ_odd (by omega) hs4ev
    have hNev : (b.size_status - (roundBy4 size + hdrSize)).tmod 2 = 0 :=
      even_sub_even hbev (swh_even hs4ev)
    have e := @mem_Free_eq pre
      ((⟨b.addr + hdrSize * ((roundBy4 size + hdrSize).tdiv hdrSize),
        b.size_status - (roundBy4 size + hdrSize)⟩ : Block) :: post)
      ⟨b.addr, roundBy4 size + 1⟩ a hane (by dsimp only; omega) hpx
    rw [hbs', e]
    dsimp only
    rw [if_pos hAodd, if_pos hNev]
    refine ⟨rfl, ?_⟩
    refine free_then_free ?_ hane ?_ ?_ ?_
    · dsimp only
      have hcan : roundBy4 size + 1 - 1 = roundBy4 size := by ring
      rw [hcan]
      exact even_add_even hs4ev hNev
    · dsimp only
      omega
    · intro x hx
      dsimp only
      exact hprelt x hx
    · intro y hy
      dsimp only
      exact hpostlt y hy
  · -- whole-block case
    have hSnn : 0 ≤ b.size_status := by omega
    have hAodd : (b.size_status + 1).tmod 2 = 1 := even_succ_odd hSnn hbev
    have e := @mem_Free_eq pre post ⟨b.addr, b.size_status + 1⟩ a hane
      (by dsimp only; omega) hpx
    rw [hbs', e]
    dsimp only
    rw [if_pos hAodd]
    have hcan : b.size_status + 1 - 1 = b.size_status := by ring
    cases post with
    | nil =>
      dsimp only
      refine ⟨rfl, ?_⟩
      refine free_then_free ?_ hane ?_ ?_ ?_
      · dsimp only
        rw [hcan]
        exact hbev
      · dsimp only
        omega
      · intro x hx
        dsimp only
        exact hprelt x hx
      · intro y hy
        simp at hy
    | cons n post' =>
      dsimp only
      by_cases hn : n.size_status.tmod 2 = 0
      · rw [if_pos hn]
        refine ⟨rfl, ?_⟩
        refine free_then_free ?_ hane ?_ ?_ ?_
        · dsimp only
          rw [hcan]
          exact even_add_even hbev hn
        · dsimp only
          omega
        · intro x hx
          dsimp only
          exact hprelt x hx
        · intro y hy
          dsimp only
          exact hpostlt y (List.mem_cons_of_mem _ hy)
      · rw [if_neg hn]
        refine ⟨rfl, ?_⟩
        refine free_then_free ?_ hane ?_ ?_ ?_
        · dsimp only
          rw [hcan]
          exact hbev
        · dsimp only
          omega
        · intro x hx
          dsimp only
          exact hprelt x hx
        · intro y hy
          dsimp only
          exact hpostlt y hy

theorem find?_min_addr {p : Block → Bool} : ∀ {bs : List Block} {b : Block},
    List.Pairwise (fun a b => a.addr < b.addr) bs → bs.find? p = some b →
    ∀ c ∈ bs, p c = true → b.addr ≤ c.addr := by
  intro bs
  induction bs with
  | nil => intro b _ h; simp at h
  | cons x rest ih =>
    intro b hpw hf c hc hpc
    obtain ⟨hxlt, hpwrest⟩ := List.pairwise_cons.mp hpw
    rw [List.find?_cons] at hf
    cases hx : p x with
    | true =>
      rw [hx] at hf
      simp at hf
      subst hf
      rcases List.mem_cons.mp hc with hc | hc
      · subst hc; exact le_refl _
      · exact le_of_lt (hxlt c hc)
    | false =>
      rw [hx] at hf
      simp only at hf
      rcases List.mem_cons.mp hc with hc | hc
      · subst hc
        rw [hx] at hpc
        exact absurd hpc (by decide)
      · exact ih hpwrest hf c hc hpc

/-! ## Claims -/

/-- C1: the specification says the new free node created by a split begins
at the selected block's start + header size + rounded requested size.  The
code computes the new node's address as
`start + hdrSize * ((rounded + hdrSize) / hdrSize)` with truncating integer
division (pointer arithmetic in units of `sizeof(block_header)`), which
differs whenever the rounded size is not a multiple of the header size.
Evaluation at the failing input: a fresh 4096-byte region (one free block of
payload 4088 at address 0) and a request of 4 bytes places the new free node
at address 8 — overlapping the allocated payload — while the specification
requires address 0 + 8 + 4 = 12.  The node does inherit the old `next`
pointer (the tail of the list) and the leftover payload size 4076. -/
theorem C1_split_address_eval :
    mem_Alloc [⟨0, 4088⟩] 4 = (some 8, [⟨0, 5⟩, ⟨8, 4076⟩]) ∧
      (8 : Int) ≠ 0 + hdrSize + 4 := by
  constructor
  · decide
  · decide

/-- C2 counterexample: the claim says that once *some* call to `init` has
been made, every later call fails.  But `allocated_once` is set only after a
successful `mmap`, so a failed first call (here `init(0)`) does not block a
later one: after `init(0)` fails, `init(4096)` returns 0 (success), not
-1. -/
theorem C2_counterexample :
    (mem_Init initialState true true 0 4096 0).1 = -1 ∧
      (mem_Init (run initialState [Op.opInit true true 0 4096 0]) true true 0 4096 4096).1
        = 0 := by
  constructor
  · decide
  · decide

/-- C2 (amended): a call to `init` fails when a *successful* `init` has
already happened (and this persists across any later sequence of calls), and
also when the requested size is not strictly positive, or when either OS
primitive (`open("/dev/zero")` or `mmap`) fails. -/
theorem C2_init_failure_modes (s : MemState) (f m f' m' : Bool)
    (base pg sz : Int) (ops : List Op) (base' pg' sz' : Int) :
    (s.allocated_once = true → (mem_Init s f m base pg sz).1 = -1) ∧
    (sz ≤ 0 → (mem_Init s f m base pg sz).1 = -1) ∧
    (f = false → (mem_Init s f m base pg sz).1 = -1) ∧
    (m = false → (mem_Init s f m base pg sz).1 = -1) ∧
    ((mem_Init s f m base pg sz).1 = 0 →
      (mem_Init (run (mem_Init s f m base pg sz).2 ops) f' m' base' pg' sz').1 = -1) := by
  refine ⟨?_, ?_, ?_, ?_, ?_⟩
  · intro h
    rw [mem_Init_fail_of_allocated h]
  · intro h
    unfold mem_Init
    split_ifs <;> simp_all
  · intro h
    subst h
    unfold mem_Init
    split_ifs <;> simp_all
  · intro h
    subst h
    unfold mem_Init
    split_ifs <;> simp_all
  · intro h0
    have h1 := mem_Init_success_state h0
    have h2 := run_allocated ops h1
    exact congrArg Prod.fst (mem_Init_fail_of_allocated h2)

/-- Witness for C2: a second `init` after a successful one fails, and
`init` on an already-initialized state fails. -/
theorem C2_init_failure_modes_witness :
    (mem_Init (⟨true, []⟩ : MemState) true true 0 4096 1024).1 = -1 ∧
    (mem_Init (run (mem_Init initialState true true 0 4096 1024).2 [Op.opAlloc 100])
        true true 0 4096 2048).1 = -1 :=
  ⟨(C2_init_failure_modes ⟨true, []⟩ true true true true 0 4096 1024 [] 0 0 0).1 rfl,
   (C2_init_failure_modes initialState true true true true 0 4096 1024
      [Op.opAlloc 100] 0 4096 2048).2.2.2.2 (by decide)⟩

/-- C3: coverage invariant.  In every block list reachable from a successful
`Mem_Init` (whose region the OS rounded up to `R` bytes) by any sequence of
`Mem_Alloc` / `Mem_Free` calls, the payload sizes plus header sizes of all
blocks in the list sum to `R`. -/
theorem C3_coverage_invariant {R : Int} {bs : List Block} (h : Reach R bs) :
    coverage bs = R := by
  induction h with
  | init base pg sz hsz hpg hpg4 hpg8 =>
    obtain ⟨hdvd, hge, hpge⟩ := alloc_size_spec hsz hpg
    have h4pg : (4 : Int) ∣ pg := Int.dvd_of_tmod_eq_zero hpg4
    have hR4 : (4 : Int) ∣ (sz + padsize pg sz) := dvd_trans h4pg hdvd
    have h8 : hdrSize = (8 : Int) := rfl
    have hRev : (sz + padsize pg sz - hdrSize).tmod 2 = 0 :=
      Int.tmod_eq_zero_of_dvd (by omega)
    rw [coverage_cons, coverage_nil]
    unfold blockTotal
    rw [payload_even hRev]
    dsimp only
    omega
  | alloc R sz hr ih =>
    rw [mem_Alloc_coverage]
    exact ih
  | free R p hr ih =>
    rw [mem_Free_coverage]
    exact ih

/-- Witness for C3: `init(1024)` with page size 4096 yields one block of
payload 4088, and the coverage is the rounded-up region size 4096. -/
theorem C3_coverage_invariant_witness :
    coverage [⟨0, 1024 + padsize 4096 1024 - hdrSize⟩] = 1024 + padsize 4096 1024 ∧
      (1024 + padsize 4096 1024 : Int) = 4096 :=
  ⟨C3_coverage_invariant
      (Reach.init 0 4096 1024 (by decide) (by decide) (by decide) (by decide)),
   by decide⟩

/-- C4: no-adjacent-free invariant.  If the list satisfies invariant I2
before the call, then after every successful `Mem_Free` no two consecutive
blocks are both free; moreover `Mem_Free` always absorbs a free
immediately-following block (forward coalescing), and the `freeBack` phase
merges with a free immediate predecessor located by the linear walk from the
head when the freed block is not the head. -/
theorem C4_no_adjacent_free :
    (∀ (bs : List Block) (p : Int), noAdjacentFree bs → (mem_Free bs p).1 = 0 →
      noAdjacentFree (mem_Free bs p).2) ∧
    (∀ (pre post : List Block) (b n : Block) (p : Int), p ≠ 0 →
      b.addr = p - hdrSize → (∀ x ∈ pre, x.addr ≠ p - hdrSize) →
      b.size_status.tmod 2 = 1 → n.size_status.tmod 2 = 0 →
      mem_Free (pre ++ b :: n :: post) p =
        (0, freeBack pre ⟨b.addr, b.size_status - 1 + n.size_status + hdrSize⟩ post)) := by
  constructor
  · intro bs p h hs
    exact mem_Free_noAdjacentFree bs p h hs
  · intro pre post b n p hp hba hpre hodd hnev
    rw [mem_Free_eq hp hba hpre, if_pos hodd]
    dsimp only
    rw [if_pos hnev]

/-- Witness for C4: freeing the allocated block of a split list restores the
invariant, and the forward coalescing equation holds on the same input. -/
theorem C4_no_adjacent_free_witness :
    noAdjacentFree (mem_Free [(⟨0, 101⟩ : Block), ⟨104, 3980⟩] 8).2 ∧
    mem_Free [(⟨0, 101⟩ : Block), ⟨104, 3980⟩] 8 =
      (0, freeBack [] ⟨0, 101 - 1 + 3980 + hdrSize⟩ []) :=
  ⟨C4_no_adjacent_free.1 [⟨0, 101⟩, ⟨104, 3980⟩] 8
     (by
       show List.Chain' notBothFree [⟨0, 101⟩, ⟨104, 3980⟩]
       refine List.chain'_cons.mpr ⟨?_, List.chain'_singleton _⟩
       exact notBothFree_of_left (by decide))
     (by decide),
   C4_no_adjacent_free.2 [] [] ⟨0, 101⟩ ⟨104, 3980⟩ 8 (by decide) (by decide)
     (by intro x hx; simp at hx) (by decide) (by decide)⟩

/-- C5: first-fit policy.  For a positive request, the returned address is
determined by `List.find?` of the size test over the list in order: the
first free block whose `size_status` is at least rounded size + header size
is selected and its payload address returned.  Under the address-ordering
invariant the selected block is the lowest-addressed fitting block: every
other fitting block has an address no smaller (in particular free blocks
with smaller payload, or payload exactly equal to the rounded size, are
skipped). -/
theorem C5_first_fit (bs : List Block) (size : Int) (hsz : 0 < size)
    (hsorted : List.Pairwise (fun a b => a.addr < b.addr) bs) :
    (mem_Alloc bs size).1 =
      (bs.find? (fits (roundBy4 size + hdrSize))).map (fun b => b.addr + hdrSize) ∧
    (∀ a, (mem_Alloc bs size).1 = some a →
      ∃ b, b ∈ bs ∧ fits (roundBy4 size + hdrSize) b = true ∧ a = b.addr + hdrSize ∧
        ∀ c ∈ bs, fits (roundBy4 size + hdrSize) c = true → b.addr ≤ c.addr) := by
  have e : (mem_Alloc bs size).1 =
      (bs.find? (fits (roundBy4 size + hdrSize))).map (fun b => b.addr + hdrSize) := by
    unfold mem_Alloc
    rw [if_neg (by omega)]
    exact allocScan_fst _ _ bs
  refine ⟨e, ?_⟩
  intro a ha
  rw [e] at ha
  cases hf : bs.find? (fits (roundBy4 size + hdrSize)) with
  | none => rw [hf] at ha; simp at ha
  | some b =>
    rw [hf] at ha
    simp at ha
    refine ⟨b, List.mem_of_find?_eq_some hf, List.find?_some hf, ha.symm, ?_⟩
    exact find?_min_addr hsorted hf

/-- Witness for C5: on the post-init list a request of 100 bytes selects the
single free block and returns its payload address 8. -/
theorem C5_first_fit_witness :
    ((mem_Alloc [(⟨0, 4088⟩ : Block)] 100).1 =
      (([(⟨0, 4088⟩ : Block)]).find? (fits (roundBy4 100 + hdrSize))).map
        (fun b => b.addr + hdrSize)) ∧
    (∀ a, (mem_Alloc [(⟨0, 4088⟩ : Block)] 100).1 = some a →
      ∃ b, b ∈ [(⟨0, 4088⟩ : Block)] ∧ fits (roundBy4 100 + hdrSize) b = true ∧
        a = b.addr + hdrSize ∧
        ∀ c ∈ [(⟨0, 4088⟩ : Block)], fits (roundBy4 100 + hdrSize) c = true →
          b.addr ≤ c.addr) :=
  C5_first_fit [⟨0, 4088⟩] 100 (by decide) (by simp)

/-- C6: deallocate validation and double-free detection.  `Mem_Free` fails
on the null address; at a managed address it fails exactly when the header
recovered one header-width below the address has a clear allocation flag;
and for any address returned by a successful `Mem_Alloc` (from a tiled,
well-sized list with non-negative addresses), the first `Mem_Free` succeeds
and an immediately following second `Mem_Free` on the same address
fails. -/
theorem C6_free_validation :
    (∀ bs : List Block, mem_Free bs 0 = (-1, bs)) ∧
    (∀ (bs pre post : List Block) (b : Block) (p : Int), p ≠ 0 →
      findBlock (p - hdrSize) bs = some (pre, b, post) →
      ((mem_Free bs p).1 = -1 ↔ ¬ b.size_status.tmod 2 = 1)) ∧
    (∀ (bs bs' : List Block) (size a : Int), tiled bs → sizesOK bs →
      (∀ x ∈ bs, 0 ≤ x.addr) → 0 < size →
      mem_Alloc bs size = (some a, bs') →
      (mem_Free bs' a).1 = 0 ∧ (mem_Free (mem_Free bs' a).2 a).1 = -1) := by
  refine ⟨?_, ?_, ?_⟩
  · intro bs
    unfold mem_Free
    rw [if_pos (show ((0 : Int) == 0) = true from rfl)]
  · intro bs pre post b p hp hfb
    obtain ⟨hbs, hba, hpre⟩ := findBlock_some hfb
    rw [hbs, mem_Free_eq hp hba hpre]
    by_cases hodd : b.size_status.tmod 2 = 1
    · rw [if_pos hodd]
      constructor
      · intro hc
        exfalso
        cases post with
        | nil => simp at hc
        | cons n post' =>
          dsimp only at hc
          by_cases hn : n.size_status.tmod 2 = 0
          · rw [if_pos hn] at hc; simp at hc
          · rw [if_neg hn] at hc; simp at hc
      · intro hc
        exact absurd hodd hc
    · rw [if_neg hodd]
      simp [hodd]
  · intro bs bs' size a ht hs haddr hsz halloc
    exact alloc_free_free ht hs haddr hsz halloc

/-- Witness for C6: null free fails on a concrete list; freeing a free
block's payload address fails; and the alloc/free/free round trip on the
post-init list succeeds then fails. -/
theorem C6_free_validation_witness :
    mem_Free [(⟨0, 4⟩ : Block)] 0 = (-1, [⟨0, 4⟩]) ∧
    ((mem_Free [(⟨0, 12⟩ : Block)] 8).1 = -1 ↔ ¬ (12 : Int).tmod 2 = 1) ∧
    ((mem_Free [(⟨0, 101⟩ : Block), ⟨104, 3980⟩] 8).1 = 0 ∧
      (mem_Free (mem_Free [(⟨0, 101⟩ : Block), ⟨104, 3980⟩] 8).2 8).1 = -1) :=
  ⟨C6_free_validation.1 [⟨0, 4⟩],
   C6_free_validation.2.1 [⟨0, 12⟩] [] [] ⟨0, 12⟩ 8 (by decide) (by decide),
   C6_free_validation.2.2 [⟨0, 4088⟩] [⟨0, 101⟩, ⟨104, 3980⟩] 100 8
     (List.chain'_singleton _) (by decide) (by decide) (by decide) (by decide)⟩

/-- C7: round-trip collapse.  Starting from the single free block installed
by a successful `Mem_Init` (payload `R - hdrSize`, header at `base`), an
allocation that splits the block followed by `Mem_Free` on the returned
address collapses the list back to the single free block spanning the whole
region: the freed head block forward-coalesces with the split-off tail free
block, and since it is the head no backward coalescing is attempted. -/
theorem C7_round_trip_collapse (base R size : Int)
    (hbase : 0 ≤ base) (hR : (R - hdrSize).tmod 2 = 0) (hsz : 0 < size)
    (hsplit : roundBy4 size + hdrSize + (hdrSize + 4) ≤ R - hdrSize) :
    (mem_Alloc [⟨base, R - hdrSize⟩] size).1 = some (base + hdrSize) ∧
    mem_Free (mem_Alloc [⟨base, R - hdrSize⟩] size).2 (base + hdrSize) =
      (0, [⟨base, R - hdrSize⟩]) := by
  have h8 : hdrSize = (8 : Int) := rfl
  obtain ⟨hs44, hs4ge⟩ := roundBy4_mult4 hsz
  have hs4ev : (roundBy4 size).tmod 2 = 0 := mult4_even hs44
  have e1 : mem_Alloc [⟨base, R - hdrSize⟩] size =
      (some (base + hdrSize),
        [⟨base, roundBy4 size + 1⟩,
         ⟨base + hdrSize * ((roundBy4 size + hdrSize).tdiv hdrSize),
          R - hdrSize - (roundBy4 size + hdrSize)⟩]) := by
    unfold mem_Alloc
    rw [if_neg (by omega)]
    show allocScan (roundBy4 size) (roundBy4 size + hdrSize) [⟨base, R - hdrSize⟩] = _
    unfold allocScan
    rw [if_pos (show ((R - hdrSize).tmod 2 == 0) = true by simp [hR]),
      if_pos (show R - hdrSize ≥ roundBy4 size + hdrSize by omega),
      if_pos (show R - hdrSize - (roundBy4 size + hdrSize) ≥ hdrSize + 4 by omega)]
  rw [e1]
  refine ⟨rfl, ?_⟩
  have hane : base + hdrSize ≠ 0 := by omega
  have e2 := @mem_Free_eq []
    [(⟨base + hdrSize * ((roundBy4 size + hdrSize).tdiv hdrSize),
      R - hdrSize - (roundBy4 size + hdrSize)⟩ : Block)]
    ⟨base, roundBy4 size + 1⟩ (base + hdrSize) hane
    (show base = base + hdrSize - hdrSize by omega) (by intro x hx; simp at hx)
  simp only [List.nil_append] at e2
  rw [e2]
  rw [if_pos (even_succ_odd (by omega) hs4ev),
    if_pos (even_sub_even hR (swh_even hs4ev))]
  show (0, [(⟨base, roundBy4 size + 1 - 1 +
    (R - hdrSize - (roundBy4 size + hdrSize)) + hdrSize⟩ : Block)]) = _
  have hval : roundBy4 size + 1 - 1 + (R - hdrSize - (roundBy4 size + hdrSize)) + hdrSize
      = R - hdrSize := by ring
  rw [hval]

/-- Witness for C7: `init(1024)` (page size 4096, base 0) then
`allocate(100)` then `deallocate` of the returned address 8 collapses the
list back to the single block of payload 4088. -/
theorem C7_round_trip_collapse_witness :
    (mem_Alloc [⟨0, 4096 - hdrSize⟩] 100).1 = some (0 + hdrSize) ∧
    mem_Free (mem_Alloc [⟨0, 4096 - hdrSize⟩] 100).2 (0 + hdrSize) =
      (0, [⟨0, 4096 - hdrSize⟩]) :=
  C7_round_trip_collapse 0 4096 100 (by decide) (by decide) (by decide) (by decide)

/-- C8: allocation failure is total and non-mutating.  `Mem_Alloc` returns
`NULL` (none) for every non-positive request, and whenever no block of the
list passes the first-fit size test; and in every failure case the block
list is returned unchanged. -/
theorem C8_alloc_failure (bs : List Block) (size : Int) :
    (size ≤ 0 → mem_Alloc bs size = (none, bs)) ∧
    (bs.find? (fits (roundBy4 size + hdrSize)) = none → (mem_Alloc bs size).1 = none) ∧
    ((mem_Alloc bs size).1 = none → (mem_Alloc bs size).2 = bs) := by
  refine ⟨?_, ?_, ?_⟩
  · intro h
    unfold mem_Alloc
    rw [if_pos h]
  · intro h
    by_cases hsz : size ≤ 0
    · unfold mem_Alloc
      rw [if_pos hsz]
    · unfold mem_Alloc
      rw [if_neg hsz]
      rw [allocScan_fst, h]
      rfl
  · intro h
    by_cases hsz : size ≤ 0
    · unfold mem_Alloc
      rw [if_pos hsz]
    · unfold mem_Alloc at h ⊢
      rw [if_neg hsz] at h ⊢
      exact allocScan_none_mut _ _ bs h

/-- Witness for C8: `allocate(-5)` fails without touching the list, and on
the two-block list of Scenario B a 4096-byte request fails (the free block
holds only 3980 bytes) and leaves the list unchanged. -/
theorem C8_alloc_failure_witness :
    mem_Alloc [(⟨0, 101⟩ : Block), ⟨104, 3980⟩] (-5) = (none, [⟨0, 101⟩, ⟨104, 3980⟩]) ∧
    (mem_Alloc [(⟨0, 101⟩ : Block), ⟨104, 3980⟩] 4096).1 = none ∧
    (mem_Alloc [(⟨0, 101⟩ : Block), ⟨104, 3980⟩] 4096).2 = [⟨0, 101⟩, ⟨104, 3980⟩] :=
  ⟨(C8_alloc_failure [⟨0, 101⟩, ⟨104, 3980⟩] (-5)).1 (by decide),
   (C8_alloc_failure [⟨0, 101⟩, ⟨104, 3980⟩] 4096).2.1 (by decide),
   (C8_alloc_failure [⟨0, 101⟩, ⟨104, 3980⟩] 4096).2.2 (by decide)⟩

/-- C9: multiple-of-4 invariant.  In every block list reachable from a
successful `Mem_Init` by any sequence of `Mem_Alloc` / `Mem_Free` calls,
every block's decoded payload size is a non-negative multiple of 4. -/
theorem C9_multiple_of_four {R : Int} {bs : List Block} (h : Reach R bs) :
    sizesOK bs := by
  induction h with
  | init base pg sz hsz hpg hpg4 hpg8 =>
    obtain ⟨hdvd, hge, hpge⟩ := alloc_size_spec hsz hpg
    have h4pg : (4 : Int) ∣ pg := Int.dvd_of_tmod_eq_zero hpg4
    have hR4 : (4 : Int) ∣ (sz + padsize pg sz) := dvd_trans h4pg hdvd
    have h8 : hdrSize = (8 : Int) := rfl
    have hRev : (sz + padsize pg sz - hdrSize).tmod 2 = 0 :=
      Int.tmod_eq_zero_of_dvd (by omega)
    rw [sizesOK_cons]
    refine ⟨?_, by intro x hx; simp at hx⟩
    rw [payload_even hRev]
    dsimp only
    constructor
    · omega
    · exact Int.tmod_eq_zero_of_dvd (by omega)
  | alloc R sz hr ih =>
    unfold mem_Alloc
    by_cases hsz : sz ≤ 0
    · rw [if_pos hsz]
      exact ih
    · rw [if_neg hsz]
      have hpos : (0 : Int) < sz := by omega
      obtain ⟨h1, h2⟩ := roundBy4_mult4 hpos
      exact allocScan_sizesOK h1 h2 _ ih
  | free R p hr ih =>
    exact mem_Free_sizesOK _ _ ih

/-- Witness for C9: the post-init list of a 1024-byte request (rounded to
4096) has every payload a non-negative multiple of 4. -/
theorem C9_multiple_of_four_witness :
    sizesOK [⟨0, 1024 + padsize 4096 1024 - hdrSize⟩] :=
  C9_multiple_of_four
    (Reach.init 0 4096 1024 (by decide) (by decide) (by decide) (by decide))

/-- C10: deallocate is atomic on error.  Whenever `Mem_Free` fails (null
address or clear allocation flag in the recovered header), the block list it
returns is exactly the input list. -/
theorem C10_free_error_atomic (bs : List Block) (p : Int)
    (hfail : (mem_Free bs p).1 = -1) : (mem_Free bs p).2 = bs := by
  unfold mem_Free at hfail ⊢
  by_cases hp : p == 0
  · rw [if_pos hp]
  · rw [if_neg hp] at hfail ⊢
    cases hfb : findBlock (p - hdrSize) bs with
    | none => rfl
    | some t =>
      obtain ⟨pre, b, post⟩ := t
      obtain ⟨hbs, _, _⟩ := findBlock_some hfb
      rw [hfb] at hfail
      dsimp only at hfail ⊢
      cases hodd : (b.size_status.tmod 2 == 1) with
      | false =>
        rw [if_pos (show (!false) = true from rfl)]
        exact hbs.symm
      | true =>
        exfalso
        rw [hodd] at hfail
        rw [if_neg (show ¬((!true) = true) by decide)] at hfail
        cases post with
        | nil => simp at hfail
        | cons n post2 =>
          dsimp only at hfail
          cases hn : (n.size_status.tmod 2 == 0) with
          | true =>
            rw [hn, if_pos (show true = true from rfl)] at hfail
            simp at hfail
          | false =>
            rw [hn, if_neg (show ¬(false = true) by decide)] at hfail
            simp at hfail

/-- Witness for C10: freeing the payload address of an already-free block
fails and returns the untouched list. -/
theorem C10_free_error_atomic_witness :
    (mem_Free [(⟨0, 12⟩ : Block)] 8).2 = [⟨0, 12⟩] :=
  C10_free_error_atomic [⟨0, 12⟩] 8 (by decide)
